import Mathlib

/-!
Verification of the deal aggregation and change-detection pipeline of the
Amazon deals monitor.  The definitions below are a shallow embedding of the
pure logic of the two source modules:

-  the per-cycle Run Aggregator and the Cycle Orchestrator loops in
   DealMonitorBot.scrape_and_process,
-  the Change Detector DealMonitorBot.process_deal against the document
   store (modelled as a list of records, with find_one returning the first
   match and update_one doing a dollar-set replace of the documents mutable
   fields),
-  the notification delivery loop DealMonitorBot.notify_change with its
   single rate-limit retry.

Strings model the Python string values; the absent sentinel is the literal
string "N/A", and Python truthiness of a string is the test for nonempty.
Timestamps are natural numbers.
-/

/-- The thirteen fields of one scraped deal record, as produced by
AmazonDealsScraper.parse_promotion. -/
structure Deal where
  title : String
  asin : String
  product_url : String
  discount : String
  current_price : String
  original_price : String
  deal_badge : String
  category : String
  brand_id : String
  image_url : String
  marketplace_id : String
  site : String
  base_url : String
deriving DecidableEq, Repr

/-- Names of the deal fields, used to quantify over fields. -/
inductive FieldName
  | title | asin | product_url | discount | current_price | original_price
  | deal_badge | category | brand_id | image_url | marketplace_id | site | base_url
deriving DecidableEq, Repr

/-- FieldName lookup on a deal, the analogue of deal.get(field). -/
def Deal.get (d : Deal) : FieldName → String
  | .title => d.title
  | .asin => d.asin
  | .product_url => d.product_url
  | .discount => d.discount
  | .current_price => d.current_price
  | .original_price => d.original_price
  | .deal_badge => d.deal_badge
  | .category => d.category
  | .brand_id => d.brand_id
  | .image_url => d.image_url
  | .marketplace_id => d.marketplace_id
  | .site => d.site
  | .base_url => d.base_url

/-- A value counts as present when it is truthy and not the sentinel:
the Python test (value and value != "N/A"). -/
def isPresent (v : String) : Bool := v != "" && v != "N/A"

/-- Keep the old value unless the new one is present: one assignment of the
merge loop in scrape_and_process. -/
def keepPresent (old new : String) : String := if isPresent new then new else old

/-- The field-overwrite pass of the merge loop: for every field of the
incoming deal, overwrite the stored value only when the incoming value is
present. -/
def overwrite (old new : Deal) : Deal where
  title := keepPresent old.title new.title
  asin := keepPresent old.asin new.asin
  product_url := keepPresent old.product_url new.product_url
  discount := keepPresent old.discount new.discount
  current_price := keepPresent old.current_price new.current_price
  original_price := keepPresent old.original_price new.original_price
  deal_badge := keepPresent old.deal_badge new.deal_badge
  category := keepPresent old.category new.category
  brand_id := keepPresent old.brand_id new.brand_id
  image_url := keepPresent old.image_url new.image_url
  marketplace_id := keepPresent old.marketplace_id new.marketplace_id
  site := keepPresent old.site new.site
  base_url := keepPresent old.base_url new.base_url

/-- The site context of the orchestrator loop: the per-site marketplace id,
site name and base url used to key and stamp collected deals. -/
structure SiteCtx where
  marketplace_id : String
  site_name : String
  base_url : String
deriving DecidableEq, Repr

/-- One aggregated entry of the collected dictionary: the deal fields plus
the categories list accumulated this cycle. -/
structure AggDeal where
  deal : Deal
  categories : List String
deriving DecidableEq, Repr

/-- Strict lexicographic comparison of character lists by code point, the
order Python uses to compare strings. -/
def lexLt : List Char → List Char → Bool
  | _, [] => false
  | [], _ :: _ => true
  | c :: cs, d :: ds =>
      decide (c.toNat < d.toNat) || (decide (c.toNat = d.toNat) && lexLt cs ds)

/-- Strict string comparison by code points, the order of Python sorted. -/
def strLt (a b : String) : Bool := lexLt a.data b.data

/-- Ordered duplicate-free insertion of a string into a strictly sorted
list. -/
def insertCat (x : String) : List String → List String
  | [] => [x]
  | y :: ys =>
      if x = y then y :: ys
      else if strLt x y then x :: y :: ys
      else y :: insertCat x ys

/-- The sorted deduplicated categories list, the analogue of
Python sorted(set(l)): the strictly increasing enumeration of the distinct
elements. -/
def sortCats (l : List String) : List String := l.foldr insertCat []

/-- Strict sortedness of a list of strings under the code point order. -/
def SSorted (l : List String) : Prop := l.Pairwise (fun a b => strLt a b = true)

/-- The composite dictionary key built by string concatenation in
scrape_and_process. -/
def aggKey (m s a : String) : String := m ++ ":" ++ s ++ ":" ++ a

/-- An asin is usable when it is truthy and not the sentinel; other deals
are skipped by the collection loop. -/
def validAsin (a : String) : Bool := a != "" && a != "N/A"

/-- First lookup in the collected association list, the analogue of
collected.get(key). -/
def assocFind (k : String) : List (String × AggDeal) → Option AggDeal
  | [] => none
  | (k₀, v) :: rest => if k₀ = k then some v else assocFind k rest

/-- In-place replacement of the value stored under a key, the analogue of
mutating the dict entry. -/
def assocUpdate (k : String) (v : AggDeal) : List (String × AggDeal) → List (String × AggDeal)
  | [] => []
  | (k₀, v₀) :: rest => if k₀ = k then (k₀, v) :: rest else (k₀, v₀) :: assocUpdate k v rest

/-- First observation of an identity: store the deal as-is with the context
fields stamped in and a singleton categories list. -/
def firstObs (ctx : SiteCtx) (d : Deal) : AggDeal where
  deal := { d with
    marketplace_id := ctx.marketplace_id
    site := ctx.site_name
    base_url := ctx.base_url }
  categories := [d.category]

/-- Merge of a repeated observation into the stored entry: categories become
the sorted union, every other field the latest present value. -/
def mergeObs (stored : AggDeal) (d : Deal) : AggDeal where
  deal := overwrite stored.deal d
  categories := sortCats (d.category :: stored.categories)

/-- One iteration of the collection loop of scrape_and_process for a single
scraped deal under a site context. -/
def step (ctx : SiteCtx) (st : List (String × AggDeal)) (d : Deal) : List (String × AggDeal) :=
  if validAsin d.asin then
    let key := aggKey ctx.marketplace_id ctx.site_name d.asin
    match assocFind key st with
    | some stored => assocUpdate key (mergeObs stored d) st
    | none => st ++ [(key, firstObs ctx d)]
  else st

/-- One observation of the cycle: a scraped deal together with the site
context it was scraped under. -/
structure Obs where
  ctx : SiteCtx
  deal : Deal
deriving DecidableEq, Repr

/-- The collection step applied to one observation. -/
def stepObs (st : List (String × AggDeal)) (o : Obs) : List (String × AggDeal) :=
  step o.ctx st o.deal

/-- The Run Aggregator over a cycle: fold the collection step over the
observation stream, starting from the empty dictionary. -/
def aggregate (l : List Obs) : List (String × AggDeal) := l.foldl stepObs []

/-- The dictionary key of one observation. -/
def obsKey (o : Obs) : String := aggKey o.ctx.marketplace_id o.ctx.site_name o.deal.asin

/-- The category labels observed for a given key across the cycle, in
observation order, restricted to observations with a usable asin. -/
def obsCats (k : String) (l : List Obs) : List String :=
  (l.filter (fun o => validAsin o.deal.asin && obsKey o == k)).map (fun o => o.deal.category)

/-- The values of one field observed for a given key across the cycle, in
observation order, restricted to observations with a usable asin. -/
def obsVals (k : String) (f : FieldName) (l : List Obs) : List String :=
  (l.filter (fun o => validAsin o.deal.asin && obsKey o == k)).map (fun o => o.deal.get f)

/-- An observation is coherent when the marketplace, site and base url
stamped inside its deal agree with the site context it is scraped under,
as the orchestrator arranges by constructing the scraper from the context. -/
def coherent (o : Obs) : Prop :=
  o.deal.marketplace_id = o.ctx.marketplace_id ∧
  o.deal.site = o.ctx.site_name ∧
  o.deal.base_url = o.ctx.base_url

/-- The merged value of one field over a sequence of observed values: the
first value, then overwritten by each later value that is present, so the
last present value wins and an absent value never overwrites. -/
def mergeVals : List String → Option String
  | [] => none
  | v :: vs => some (vs.foldl keepPresent v)

/-- A change classification as returned by process_deal: the change type
string and the watched-field diffs as (field name, old value, new value). -/
structure DealChange where
  change_type : String
  changed_fields : List (String × String × String)
deriving DecidableEq, Repr

/-- A persisted canonical record of the deals collection: the deal fields,
the accumulated categories, and the first and last seen timestamps. -/
structure Record where
  deal : Deal
  categories : List String
  first_seen : Nat
  last_seen : Nat
deriving DecidableEq, Repr

/-- The store lookup filter built by process_deal: always match on asin, and
match on marketplace and site only when the incoming value is truthy. -/
def matchesQuery (d : Deal) (r : Record) : Bool :=
  r.deal.asin == d.asin &&
  (d.marketplace_id == "" || r.deal.marketplace_id == d.marketplace_id) &&
  (d.site == "" || r.deal.site == d.site)

/-- Replace the first record matching the filter with the new record, the
analogue of update_one on the id of the record found by find_one. -/
def applyUpdate (d : Deal) (newRec : Record) : List Record → List Record
  | [] => []
  | r :: rs => if matchesQuery d r then newRec :: rs else r :: applyUpdate d newRec rs

/-- The categories persisted by process_deal: the stored set when a record
exists, plus the direct category when truthy, plus the aggregated list,
sorted. -/
def persistedCats (stored : List String) (a : AggDeal) : List String :=
  sortCats (stored ++ (if a.deal.category = "" then [] else [a.deal.category]) ++ a.categories)

/-- The Change Detector process_deal for one aggregated deal: look up the
record, build the merged document, insert or update, and classify.  Returns
the optional change event, the new-deal flag, and the store after the write. -/
def processDeal (now : Nat) (store : List Record) (a : AggDeal) :
    Option DealChange × Bool × List Record :=
  match store.find? (matchesQuery a.deal) with
  | none =>
      let created : Record :=
        { deal := a.deal
          categories := persistedCats [] a
          first_seen := now
          last_seen := now }
      (some ⟨"New deal", []⟩, true, store ++ [created])
  | some existing =>
      let changed : List (String × String × String) :=
        if existing.deal.current_price = a.deal.current_price then []
        else [("current_price", existing.deal.current_price, a.deal.current_price)]
      let newRec : Record :=
        { deal := a.deal
          categories := persistedCats existing.categories a
          first_seen := existing.first_seen
          last_seen := now }
      let store' := applyUpdate a.deal newRec store
      (if changed.isEmpty then none else some ⟨"Updated deal", changed⟩, false, store')

/-- The per-deal processing loop of scrape_and_process: fold process_deal
over the aggregated deals, skipping deals whose store operations fail (the
broad per-deal exception handler), collecting notifications for deals with a
change event.  The accumulator carries the store and the notification list. -/
def processAll (fails : Deal → Bool) (now : Nat)
    (acc : List Record × List (AggDeal × DealChange)) :
    List AggDeal → List Record × List (AggDeal × DealChange)
  | [] => acc
  | a :: rest =>
      if fails a.deal then processAll fails now acc rest
      else
        let r := processDeal now acc.1 a
        processAll fails now
          (r.2.2, acc.2 ++ (match r.1 with | some c => [(a, c)] | none => [])) rest

/-- The scraping stage of one cycle: for each site, fold over the
per-category scrape outcomes, skipping failed categories (the broad
per-category exception handler) and collecting the deals of successful ones. -/
def collectCycle (runs : List (SiteCtx × List (Except Unit (List Deal)))) :
    List (String × AggDeal) :=
  runs.foldl
    (fun st run =>
      run.2.foldl
        (fun st r =>
          match r with
          | .error _ => st
          | .ok ds => ds.foldl (step run.1) st)
        st)
    []

/-- The store after processing a full cycle of aggregated deals. -/
def processedStore (now : Nat) (store : List Record) (aggs : List AggDeal) : List Record :=
  (processAll (fun _ => false) now (store, []) aggs).1

/-- The store after a sequence of cycles, each given by its timestamp and
its aggregated deals. -/
def runCycles (store : List Record) : List (Nat × List AggDeal) → List Record
  | [] => store
  | (now, aggs) :: rest => runCycles (processedStore now store aggs) rest

/-- The outcome of one notification send attempt: delivered, rejected with
the rate-limit status 429, or failed with another error. -/
inductive SendOutcome
  | ok | rateLimited | otherError
deriving DecidableEq, Repr

/-- The delivery of one notification, notify_change: send once; on a
rate-limit wait and send again, with any failure of the second send
propagating; on any other error propagate at once.  Returns the number of
send attempts made on success, or the propagated error. -/
def notifyChange (attempt : Nat → SendOutcome) : Except SendOutcome Nat :=
  match attempt 0 with
  | .ok => .ok 1
  | .rateLimited =>
      match attempt 1 with
      | .ok => .ok 2
      | e => .error e
  | .otherError => .error .otherError

/-- The notification loop of scrape_and_process: deliver notifications in
order; an error propagating out of one delivery aborts the rest of the loop.
Returns the attempt counts of the delivered notifications and the aborting
error, if any. -/
def runNotifs : List (Nat → SendOutcome) → List Nat × Option SendOutcome
  | [] => ([], none)
  | f :: fs =>
      match notifyChange f with
      | .ok n =>
          let r := runNotifs fs
          (n :: r.1, r.2)
      | .error e => ([], some e)

/-- A sample site context used by the concrete scenarios. -/
def sampleCtx : SiteCtx := ⟨"M1", "SiteA", "https://example.com"⟩

/-- A sample scraped deal with the given category and current price; the
remaining dynamic fields carry the absent sentinel. -/
def sampleDeal (cat price : String) : Deal :=
  ⟨"Item X", "B000X", "https://example.com/dp/B000X", "N/A", price, "N/A", "N/A",
   cat, "N/A", "N/A", "M1", "SiteA", "https://example.com"⟩

/-- The dictionary key of the sample deal under the sample context. -/
def sampleKey : String := aggKey "M1" "SiteA" "B000X"

/-- A sample stored canonical record with price 10.00. -/
def sampleRecord : Record := ⟨sampleDeal "Beauty" "10.00", ["Beauty"], 0, 0⟩

/-- A sample aggregated listing whose price observation is absent. -/
def sampleAggNA : AggDeal := ⟨sampleDeal "Beauty" "N/A", ["Beauty"]⟩

/-- A sample aggregated listing with price 8.00. -/
def sampleAgg8 : AggDeal := ⟨sampleDeal "Beauty" "8.00", ["Beauty"]⟩

/-- A sample aggregated listing with the unchanged price 10.00. -/
def sampleAgg10 : AggDeal := ⟨sampleDeal "Beauty" "10.00", ["Beauty"]⟩

/-- The sample observation in category Beauty with price 10.00. -/
def obsBeauty : Obs := ⟨sampleCtx, sampleDeal "Beauty" "10.00"⟩

/-- The sample observation in category Gaming with absent price. -/
def obsGaming : Obs := ⟨sampleCtx, sampleDeal "Gaming" "N/A"⟩

/-- The aggregated entry produced by observing Beauty at 10.00 and then
Gaming with absent price. -/
def sampleEntry : AggDeal :=
  mergeObs (firstObs sampleCtx (sampleDeal "Beauty" "10.00")) (sampleDeal "Gaming" "N/A")

/-- Store growth relation: the second store has at least the records of the
first, position by position, with categories only growing. -/
def StoreMono (st₁ st₂ : List Record) : Prop :=
  st₁.length ≤ st₂.length ∧
  ∀ (i : Nat) (r₁ r₂ : Record), st₁[i]? = some r₁ → st₂[i]? = some r₂ →
    ∀ c, c ∈ r₁.categories → c ∈ r₂.categories

/-! ## Order lemmas for the code point order -/

theorem lexLt_nil_right (a : List Char) : lexLt a [] = false := by
  cases a <;> rfl

theorem lexLt_irrefl (a : List Char) : lexLt a a = false := by
  induction a with
  | nil => rfl
  | cons c cs ih => simp [lexLt, ih]

theorem lexLt_trans (a : List Char) :
    ∀ b c, lexLt a b = true → lexLt b c = true → lexLt a c = true := by
  induction a with
  | nil =>
      intro b c _ h₂
      cases c with
      | nil => rw [lexLt_nil_right] at h₂; exact absurd h₂ (by simp)
      | cons z zs => rfl
  | cons x xs ih =>
      intro b c h₁ h₂
      cases b with
      | nil => rw [lexLt_nil_right] at h₁; exact absurd h₁ (by simp)
      | cons y ys =>
          cases c with
          | nil => rw [lexLt_nil_right] at h₂; exact absurd h₂ (by simp)
          | cons z zs =>
              simp only [lexLt, Bool.or_eq_true, Bool.and_eq_true, decide_eq_true_eq] at h₁ h₂ ⊢
              rcases h₁ with h | ⟨he, ht⟩ <;> rcases h₂ with h2 | ⟨he2, ht2⟩
              · left; omega
              · left; omega
              · left; omega
              · exact Or.inr ⟨by omega, ih ys zs ht ht2⟩

theorem lexLt_trichotomy (a : List Char) :
    ∀ b, lexLt a b = true ∨ a = b ∨ lexLt b a = true := by
  induction a with
  | nil =>
      intro b
      cases b with
      | nil => exact Or.inr (Or.inl rfl)
      | cons z zs => exact Or.inl rfl
  | cons x xs ih =>
      intro b
      cases b with
      | nil => exact Or.inr (Or.inr rfl)
      | cons y ys =>
          rcases Nat.lt_trichotomy x.toNat y.toNat with h | h | h
          · exact Or.inl (by simp [lexLt, h])
          · have hx : x = y := Char.ext (UInt32.ext h)
            subst hx
            rcases ih ys with h2 | h2 | h2
            · exact Or.inl (by simp [lexLt, h2])
            · exact Or.inr (Or.inl (by rw [h2]))
            · exact Or.inr (Or.inr (by simp [lexLt, h2]))
          · exact Or.inr (Or.inr (by simp [lexLt, h]))

theorem strLt_irrefl (a : String) : strLt a a = false := lexLt_irrefl a.data

theorem strLt_trans {a b c : String} (h₁ : strLt a b = true) (h₂ : strLt b c = true) :
    strLt a c = true := lexLt_trans a.data b.data c.data h₁ h₂

theorem strLt_trichotomy (a b : String) : strLt a b = true ∨ a = b ∨ strLt b a = true := by
  rcases lexLt_trichotomy a.data b.data with h | h | h
  · exact Or.inl h
  · exact Or.inr (Or.inl (String.ext h))
  · exact Or.inr (Or.inr h)

theorem strLt_asymm {a b : String} (h₁ : strLt a b = true) (h₂ : strLt b a = true) : False := by
  have := strLt_trans h₁ h₂
  rw [strLt_irrefl] at this
  exact absurd this (by simp)

theorem strLt_ne {a b : String} (h : strLt a b = true) : a ≠ b := by
  intro he
  subst he
  rw [strLt_irrefl] at h
  exact absurd h (by simp)

/-! ## Lemmas about the sorted deduplicated categories list -/

theorem mem_insertCat {a x : String} : ∀ {l : List String},
    a ∈ insertCat x l ↔ a = x ∨ a ∈ l := by
  intro l
  induction l with
  | nil => simp [insertCat]
  | cons y ys ih =>
      by_cases hxy : x = y
      · subst hxy
        simp only [insertCat, if_pos rfl]
        constructor
        · intro h; exact Or.inr h
        · rintro (rfl | h)
          · exact List.mem_cons_self _ _
          · exact h
      · simp only [insertCat, if_neg hxy]
        by_cases hlt : strLt x y = true
        · simp only [if_pos hlt, List.mem_cons]
        · simp only [if_neg hlt, List.mem_cons, ih]
          tauto

theorem SSorted_insertCat {x : String} : ∀ {l : List String},
    SSorted l → SSorted (insertCat x l) := by
  intro l
  induction l with
  | nil =>
      intro _
      simp [insertCat, SSorted]
  | cons y ys ih =>
      intro hs
      rcases (List.pairwise_cons.mp hs) with ⟨hy, hys⟩
      by_cases hxy : x = y
      · subst hxy
        simpa [insertCat, SSorted] using hs
      · simp only [insertCat, if_neg hxy]
        by_cases hlt : strLt x y = true
        · simp only [if_pos hlt]
          refine List.pairwise_cons.mpr ⟨?_, hs⟩
          intro b hb
          rcases List.mem_cons.mp hb with rfl | hb
          · exact hlt
          · exact strLt_trans hlt (hy b hb)
        · simp only [if_neg hlt]
          refine List.pairwise_cons.mpr ⟨?_, ih hys⟩
          intro b hb
          rcases mem_insertCat.mp hb with rfl | hb
          · rcases strLt_trichotomy b y with h | h | h
            · exact absurd h (by simpa using hlt)
            · exact absurd h hxy
            · exact h
          · exact hy b hb

theorem mem_sortCats {a : String} : ∀ {l : List String}, a ∈ sortCats l ↔ a ∈ l := by
  intro l
  induction l with
  | nil => simp [sortCats]
  | cons x xs ih =>
      show a ∈ insertCat x (sortCats xs) ↔ _
      rw [mem_insertCat, ih]
      simp

theorem SSorted_sortCats : ∀ (l : List String), SSorted (sortCats l) := by
  intro l
  induction l with
  | nil => simp [sortCats, SSorted]
  | cons x xs ih => exact SSorted_insertCat ih

theorem SSorted_eq_of_mem_iff : ∀ {l₁ l₂ : List String},
    SSorted l₁ → SSorted l₂ → (∀ a, a ∈ l₁ ↔ a ∈ l₂) → l₁ = l₂ := by
  intro l₁
  induction l₁ with
  | nil =>
      intro l₂ _ _ h
      cases l₂ with
      | nil => rfl
      | cons y ys => exact absurd ((h y).mpr (List.mem_cons_self _ _)) (by simp)
  | cons x xs ih =>
      intro l₂ h₁ h₂ h
      cases l₂ with
      | nil => exact absurd ((h x).mp (List.mem_cons_self _ _)) (by simp)
      | cons y ys =>
          rcases List.pairwise_cons.mp h₁ with ⟨hx, hxs⟩
          rcases List.pairwise_cons.mp h₂ with ⟨hy, hys⟩
          have hxy : x = y := by
            rcases List.mem_cons.mp ((h x).mp (List.mem_cons_self _ _)) with h' | h'
            · exact h'
            · rcases List.mem_cons.mp ((h y).mpr (List.mem_cons_self _ _)) with h'' | h''
              · exact h''.symm
              · exact absurd (strLt_asymm (hy x h') (hx y h'')) (fun f => f)
          subst hxy
          have htail : ∀ a, a ∈ xs ↔ a ∈ ys := by
            intro a
            constructor
            · intro ha
              rcases List.mem_cons.mp ((h a).mp (List.mem_cons.mpr (Or.inr ha))) with h' | h'
              · exact absurd h' (strLt_ne (hx a ha)).symm
              · exact h'
            · intro ha
              rcases List.mem_cons.mp ((h a).mpr (List.mem_cons.mpr (Or.inr ha))) with h' | h'
              · exact absurd h' (strLt_ne (hy a ha)).symm
              · exact h'
          rw [ih hxs hys htail]

theorem sortCats_eq_of_mem_iff {l₁ l₂ : List String}
    (h : ∀ a, a ∈ l₁ ↔ a ∈ l₂) : sortCats l₁ = sortCats l₂ :=
  SSorted_eq_of_mem_iff (SSorted_sortCats l₁) (SSorted_sortCats l₂)
    (fun a => by rw [mem_sortCats, mem_sortCats]; exact h a)

theorem sortCats_eq_self {l : List String} (h : SSorted l) : sortCats l = l :=
  SSorted_eq_of_mem_iff (SSorted_sortCats l) h (fun _ => mem_sortCats)

/-! ## Lemmas about the field overwrite and the collected dictionary -/

theorem overwrite_get (old new : Deal) (f : FieldName) :
    (overwrite old new).get f = keepPresent (old.get f) (new.get f) := by
  cases f <;> rfl

theorem firstObs_get {o : Obs} (h : coherent o) (f : FieldName) :
    (firstObs o.ctx o.deal).deal.get f = o.deal.get f := by
  rcases h with ⟨h₁, h₂, h₃⟩
  cases f <;> simp [firstObs, Deal.get, h₁, h₂, h₃]

theorem assocFind_assocUpdate_self {k : String} {v e : AggDeal} :
    ∀ {st : List (String × AggDeal)}, assocFind k st = some e →
      assocFind k (assocUpdate k v st) = some v := by
  intro st
  induction st with
  | nil => intro h; simp [assocFind] at h
  | cons p rest ih =>
      intro h
      obtain ⟨k₀, v₀⟩ := p
      by_cases hk : k₀ = k
      · subst hk
        simp [assocUpdate, assocFind]
      · simp only [assocFind, if_neg hk] at h
        simp [assocUpdate, assocFind, if_neg hk, ih h]

theorem assocFind_assocUpdate_ne {k' k : String} (h : k' ≠ k) (v : AggDeal) :
    ∀ (st : List (String × AggDeal)), assocFind k (assocUpdate k' v st) = assocFind k st := by
  intro st
  induction st with
  | nil => rfl
  | cons p rest ih =>
      obtain ⟨k₀, v₀⟩ := p
      by_cases hk : k₀ = k'
      · subst hk
        simp [assocUpdate, assocFind, if_neg h, ih]
      · by_cases hk2 : k₀ = k
        · subst hk2
          simp [assocUpdate, assocFind, if_neg hk]
        · simp [assocUpdate, assocFind, if_neg hk, if_neg hk2, ih]

theorem assocFind_append (k : String) (st₁ st₂ : List (String × AggDeal)) :
    assocFind k (st₁ ++ st₂) =
      match assocFind k st₁ with
      | some v => some v
      | none => assocFind k st₂ := by
  induction st₁ with
  | nil => simp [assocFind]
  | cons p rest ih =>
      obtain ⟨k₀, v₀⟩ := p
      by_cases hk : k₀ = k
      · subst hk; simp [assocFind]
      · simp [assocFind, if_neg hk, ih]

theorem assocFind_stepObs (st : List (String × AggDeal)) (o : Obs) (k : String) :
    assocFind k (stepObs st o) =
      if validAsin o.deal.asin && (obsKey o == k) then
        some (match assocFind k st with
              | none => firstObs o.ctx o.deal
              | some e => mergeObs e o.deal)
      else assocFind k st := by
  unfold stepObs step
  by_cases hv : validAsin o.deal.asin
  case neg =>
    simp [hv]
  case pos =>
    simp only [hv, if_true, Bool.true_and]
    show assocFind k
        (match assocFind (obsKey o) st with
         | some stored => assocUpdate (obsKey o) (mergeObs stored o.deal) st
         | none => st ++ [(obsKey o, firstObs o.ctx o.deal)]) = _
    by_cases hk : obsKey o = k
    case pos =>
      subst hk
      simp only [beq_self_eq_true, if_true]
      cases hfind : assocFind (obsKey o) st with
      | some stored =>
          simp only [hfind]
          exact assocFind_assocUpdate_self hfind
      | none =>
          simp only [hfind]
          rw [assocFind_append, hfind]
          simp [assocFind]
    case neg =>
      have hb : (obsKey o == k) = false := beq_eq_false_iff_ne.mpr hk
      simp only [hb, Bool.false_eq_true, if_false]
      cases hfind : assocFind (obsKey o) st with
      | some stored =>
          exact assocFind_assocUpdate_ne hk _ st
      | none =>
          rw [assocFind_append]
          cases h2 : assocFind k st with
          | some v => simp
          | none => simp [assocFind, if_neg hk]

theorem obsCats_cons (k : String) (o : Obs) (l : List Obs) :
    obsCats k (o :: l) =
      (if validAsin o.deal.asin && (obsKey o == k) then [o.deal.category] else []) ++ obsCats k l := by
  simp only [obsCats, List.filter_cons]
  by_cases h : (validAsin o.deal.asin && (obsKey o == k)) = true
  · simp [h]
  · simp [h]

theorem obsVals_cons (k : String) (f : FieldName) (o : Obs) (l : List Obs) :
    obsVals k f (o :: l) =
      (if validAsin o.deal.asin && (obsKey o == k) then [o.deal.get f] else []) ++ obsVals k f l := by
  simp only [obsVals, List.filter_cons]
  by_cases h : (validAsin o.deal.asin && (obsKey o == k)) = true
  · simp [h]
  · simp [h]

theorem aggregate_cats_mem : ∀ (l : List Obs) (st : List (String × AggDeal)) (k : String),
    (∀ a, (∃ e, assocFind k (l.foldl stepObs st) = some e ∧ a ∈ e.categories) ↔
       ((∃ e, assocFind k st = some e ∧ a ∈ e.categories) ∨ a ∈ obsCats k l))
    ∧ (assocFind k (l.foldl stepObs st) = none ↔ (assocFind k st = none ∧ obsCats k l = [])) := by
  intro l
  induction l with
  | nil =>
      intro st k
      constructor
      · intro a; simp [obsCats]
      · simp [obsCats]
  | cons o rest ih =>
      intro st k
      have hstep := assocFind_stepObs st o k
      rcases ih (stepObs st o) k with ⟨ihm, ihn⟩
      rw [obsCats_cons]
      by_cases hrel : (validAsin o.deal.asin && (obsKey o == k)) = true
      · rw [if_pos hrel] at hstep ⊢
        cases hfind : assocFind k st with
        | none =>
            rw [hfind] at hstep
            have hstep2 : assocFind k (stepObs st o) = some (firstObs o.ctx o.deal) := hstep
            constructor
            · intro a
              rw [List.foldl_cons, ihm, hstep2]
              constructor
              · rintro (⟨e, he, ha⟩ | ha)
                · rcases Option.some.inj he with rfl
                  have : a ∈ [o.deal.category] := ha
                  simp only [List.mem_singleton] at this
                  subst this
                  exact Or.inr (by simp)
                · exact Or.inr (by simp [ha])
              · rintro (⟨e, he, ha⟩ | ha)
                · exact absurd he (by simp)
                · simp only [List.mem_append, List.mem_singleton] at ha
                  rcases ha with rfl | ha
                  · exact Or.inl ⟨firstObs o.ctx o.deal, rfl, by simp [firstObs]⟩
                  · exact Or.inr ha
            · rw [List.foldl_cons, ihn, hstep2]
              simp
        | some e =>
            rw [hfind] at hstep
            have hstep2 : assocFind k (stepObs st o) = some (mergeObs e o.deal) := hstep
            constructor
            · intro a
              rw [List.foldl_cons, ihm, hstep2]
              constructor
              · rintro (⟨e2, he2, ha⟩ | ha)
                · rcases Option.some.inj he2 with rfl
                  have : a ∈ sortCats (o.deal.category :: e.categories) := ha
                  rw [mem_sortCats, List.mem_cons] at this
                  rcases this with rfl | h
                  · exact Or.inr (by simp)
                  · exact Or.inl ⟨e, rfl, h⟩
                · exact Or.inr (by simp [ha])
              · rintro (⟨e2, he2, ha⟩ | ha)
                · rcases Option.some.inj he2 with rfl
                  refine Or.inl ⟨mergeObs e o.deal, rfl, ?_⟩
                  show a ∈ sortCats (o.deal.category :: e.categories)
                  rw [mem_sortCats]
                  exact List.mem_cons.mpr (Or.inr ha)
                · simp only [List.mem_append, List.mem_singleton] at ha
                  rcases ha with rfl | ha
                  · refine Or.inl ⟨mergeObs e o.deal, rfl, ?_⟩
                    show o.deal.category ∈ sortCats (o.deal.category :: e.categories)
                    rw [mem_sortCats]
                    exact List.mem_cons.mpr (Or.inl rfl)
                  · exact Or.inr ha
            · rw [List.foldl_cons, ihn, hstep2]
              simp
      · rw [if_neg hrel] at hstep ⊢
        constructor
        · intro a
          rw [List.foldl_cons, ihm, hstep]
          simp
        · rw [List.foldl_cons, ihn, hstep]
          simp

theorem aggregate_cats_SSorted : ∀ (l : List Obs) (st : List (String × AggDeal)),
    (∀ k e, assocFind k st = some e → SSorted e.categories) →
    ∀ k e, assocFind k (l.foldl stepObs st) = some e → SSorted e.categories := by
  intro l
  induction l with
  | nil => intro st h k e hf; exact h k e hf
  | cons o rest ih =>
      intro st h k e hf
      rw [List.foldl_cons] at hf
      refine ih (stepObs st o) ?_ k e hf
      intro k2 e2 hf2
      rw [assocFind_stepObs] at hf2
      by_cases hrel : (validAsin o.deal.asin && (obsKey o == k2)) = true
      · rw [if_pos hrel] at hf2
        cases hfind : assocFind k2 st with
        | none =>
            rw [hfind] at hf2
            rcases Option.some.inj hf2 with rfl
            show SSorted [o.deal.category]
            simp [SSorted]
        | some e3 =>
            rw [hfind] at hf2
            rcases Option.some.inj hf2 with rfl
            exact SSorted_sortCats _
      · rw [if_neg hrel] at hf2
        exact h k2 e2 hf2

theorem aggregate_field_some : ∀ (l : List Obs) (st : List (String × AggDeal))
    (k : String) (f : FieldName) (e : AggDeal), (∀ o ∈ l, coherent o) →
    assocFind k st = some e →
    (assocFind k (l.foldl stepObs st)).map (fun x => x.deal.get f) =
      some ((obsVals k f l).foldl keepPresent (e.deal.get f)) := by
  intro l
  induction l with
  | nil =>
      intro st k f e _ hf
      simp [hf, obsVals]
  | cons o rest ih =>
      intro st k f e hcoh hf
      rw [List.foldl_cons, obsVals_cons]
      by_cases hrel : (validAsin o.deal.asin && (obsKey o == k)) = true
      · rw [if_pos hrel]
        have hf2 : assocFind k (stepObs st o) = some (mergeObs e o.deal) := by
          rw [assocFind_stepObs, if_pos hrel, hf]
        have := ih (stepObs st o) k f (mergeObs e o.deal)
          (fun x hx => hcoh x (List.mem_cons.mpr (Or.inr hx))) hf2
        rw [this]
        have hget : (mergeObs e o.deal).deal.get f = keepPresent (e.deal.get f) (o.deal.get f) :=
          overwrite_get e.deal o.deal f
        rw [hget]
        simp
      · rw [if_neg hrel]
        have hf2 : assocFind k (stepObs st o) = some e := by
          rw [assocFind_stepObs, if_neg hrel]; exact hf
        have := ih (stepObs st o) k f e
          (fun x hx => hcoh x (List.mem_cons.mpr (Or.inr hx))) hf2
        rw [this]
        simp

theorem aggregate_field_none : ∀ (l : List Obs) (st : List (String × AggDeal))
    (k : String) (f : FieldName), (∀ o ∈ l, coherent o) →
    assocFind k st = none →
    (assocFind k (l.foldl stepObs st)).map (fun x => x.deal.get f) =
      mergeVals (obsVals k f l) := by
  intro l
  induction l with
  | nil =>
      intro st k f _ hf
      simp [hf, obsVals, mergeVals]
  | cons o rest ih =>
      intro st k f hcoh hf
      rw [List.foldl_cons, obsVals_cons]
      by_cases hrel : (validAsin o.deal.asin && (obsKey o == k)) = true
      · rw [if_pos hrel]
        have hf2 : assocFind k (stepObs st o) = some (firstObs o.ctx o.deal) := by
          rw [assocFind_stepObs, if_pos hrel, hf]
        have := aggregate_field_some rest (stepObs st o) k f (firstObs o.ctx o.deal)
          (fun x hx => hcoh x (List.mem_cons.mpr (Or.inr hx))) hf2
        rw [this]
        rw [firstObs_get (hcoh o (List.mem_cons.mpr (Or.inl rfl))) f]
        simp [mergeVals]
      · rw [if_neg hrel]
        have hf2 : assocFind k (stepObs st o) = none := by
          rw [assocFind_stepObs, if_neg hrel]; exact hf
        have := ih (stepObs st o) k f
          (fun x hx => hcoh x (List.mem_cons.mpr (Or.inr hx))) hf2
        rw [this]
        simp

/-! ## Last present value wins -/

theorem foldl_keepPresent_of_filter_nil : ∀ (vs : List String) (init : String),
    vs.filter (fun v => isPresent v) = [] → vs.foldl keepPresent init = init := by
  intro vs
  induction vs with
  | nil => intro init _; rfl
  | cons v rest ih =>
      intro init h
      rw [List.filter_cons] at h
      by_cases hp : isPresent v = true
      · simp [hp] at h
      · simp only [hp, Bool.false_eq_true, if_false] at h
        rw [List.foldl_cons]
        rw [ih _ h]
        simp [keepPresent, hp]

theorem foldl_keepPresent_last_present : ∀ (vs : List String) (init : String)
    (ws : List String) (w : String),
    vs.filter (fun v => isPresent v) = ws ++ [w] → vs.foldl keepPresent init = w := by
  intro vs
  induction vs with
  | nil =>
      intro init ws w h
      simp at h
  | cons v rest ih =>
      intro init ws w h
      rw [List.filter_cons] at h
      by_cases hp : isPresent v = true
      · rw [if_pos hp] at h
        cases ws with
        | nil =>
            simp only [List.nil_append, List.cons.injEq] at h
            rcases h with ⟨rfl, hrest⟩
            rw [List.foldl_cons, foldl_keepPresent_of_filter_nil rest _ hrest]
            simp [keepPresent, hp]
        | cons u ws2 =>
            simp only [List.cons_append, List.cons.injEq] at h
            rcases h with ⟨rfl, hrest⟩
            rw [List.foldl_cons]
            exact ih _ ws2 w hrest
      · simp only [hp, Bool.false_eq_true, if_false] at h
        rw [List.foldl_cons]
        exact ih _ ws w h

/-! ## Lemmas about the store update -/

theorem applyUpdate_length (d : Deal) (v : Record) :
    ∀ st : List Record, (applyUpdate d v st).length = st.length := by
  intro st
  induction st with
  | nil => rfl
  | cons r rs ih =>
      by_cases h : matchesQuery d r = true
      · simp [applyUpdate, h]
      · simp [applyUpdate, h, ih]

theorem applyUpdate_getq (d : Deal) (v : Record) :
    ∀ (st : List Record) (i : Nat),
      (applyUpdate d v st)[i]? = st[i]? ∨
      ((applyUpdate d v st)[i]? = some v ∧
        ∃ ex, st[i]? = some ex ∧ st.find? (matchesQuery d) = some ex) := by
  intro st
  induction st with
  | nil => intro i; left; rfl
  | cons r rs ih =>
      intro i
      by_cases h : matchesQuery d r = true
      · have happ : applyUpdate d v (r :: rs) = v :: rs := by simp [applyUpdate, h]
        cases i with
        | zero =>
            right
            refine ⟨by rw [happ]; simp, r, by simp, ?_⟩
            rw [List.find?_cons_of_pos _ h]
        | succ j =>
            left
            rw [happ]
            simp
      · have happ : applyUpdate d v (r :: rs) = r :: applyUpdate d v rs := by
          simp [applyUpdate, h]
        cases i with
        | zero =>
            left
            rw [happ]
            simp
        | succ j =>
            rcases ih j with hcase | ⟨hv, ex, hex, hfind⟩
            · left
              rw [happ]
              simpa using hcase
            · right
              refine ⟨by rw [happ]; simpa using hv, ex, by simpa using hex, ?_⟩
              rw [List.find?_cons_of_neg _ h]
              exact hfind

theorem mem_persistedCats {a : AggDeal} {stored : List String} {c : String} :
    c ∈ persistedCats stored a ↔
      c ∈ stored ∨ (a.deal.category ≠ "" ∧ c = a.deal.category) ∨ c ∈ a.categories := by
  unfold persistedCats
  rw [mem_sortCats]
  by_cases h : a.deal.category = "" <;> simp [h]

theorem processDeal_eq_insert (now : Nat) (st : List Record) (a : AggDeal)
    (h : st.find? (matchesQuery a.deal) = none) :
    processDeal now st a =
      (some ⟨"New deal", []⟩, true,
       st ++ [{ deal := a.deal, categories := persistedCats [] a,
                first_seen := now, last_seen := now }]) := by
  unfold processDeal
  rw [h]

theorem processDeal_eq_update (now : Nat) (st : List Record) (a : AggDeal) (ex : Record)
    (h : st.find? (matchesQuery a.deal) = some ex) :
    processDeal now st a =
      ((if ex.deal.current_price = a.deal.current_price then none
        else some ⟨"Updated deal",
          [("current_price", ex.deal.current_price, a.deal.current_price)]⟩),
       false,
       applyUpdate a.deal
         { deal := a.deal, categories := persistedCats ex.categories a,
           first_seen := ex.first_seen, last_seen := now } st) := by
  unfold processDeal
  rw [h]
  by_cases hp : ex.deal.current_price = a.deal.current_price <;> simp [hp]

theorem storeMono_refl (st : List Record) : StoreMono st st := by
  refine ⟨Nat.le_refl _, ?_⟩
  intro i r₁ r₂ h₁ h₂ c hc
  rw [h₁] at h₂
  rcases Option.some.inj h₂ with rfl
  exact hc

theorem storeMono_trans {st₁ st₂ st₃ : List Record}
    (h₁ : StoreMono st₁ st₂) (h₂ : StoreMono st₂ st₃) : StoreMono st₁ st₃ := by
  rcases h₁ with ⟨hl₁, hm₁⟩
  rcases h₂ with ⟨hl₂, hm₂⟩
  refine ⟨Nat.le_trans hl₁ hl₂, ?_⟩
  intro i r₁ r₃ hr₁ hr₃ c hc
  have hi : i < st₁.length := by
    by_contra hge
    rw [List.getElem?_eq_none (Nat.le_of_not_lt hge)] at hr₁
    exact absurd hr₁ (by simp)
  have hi₂ : i < st₂.length := Nat.lt_of_lt_of_le hi hl₁
  have hr₂ : st₂[i]? = some st₂[i] := List.getElem?_eq_getElem hi₂
  exact hm₂ i _ r₃ hr₂ hr₃ c (hm₁ i r₁ _ hr₁ hr₂ c hc)

theorem processDeal_storeMono (now : Nat) (st : List Record) (a : AggDeal) :
    StoreMono st (processDeal now st a).2.2 := by
  cases hfind : st.find? (matchesQuery a.deal) with
  | none =>
      rw [processDeal_eq_insert now st a hfind]
      refine ⟨by simp, ?_⟩
      intro i r₁ r₂ h₁ h₂ c hc
      have hi : i < st.length := by
        by_contra hge
        rw [List.getElem?_eq_none (Nat.le_of_not_lt hge)] at h₁
        exact absurd h₁ (by simp)
      rw [List.getElem?_append_left hi, h₁] at h₂
      rcases Option.some.inj h₂ with rfl
      exact hc
  | some ex =>
      rw [processDeal_eq_update now st a ex hfind]
      refine ⟨by rw [applyUpdate_length], ?_⟩
      intro i r₁ r₂ h₁ h₂ c hc
      rcases applyUpdate_getq a.deal
          { deal := a.deal, categories := persistedCats ex.categories a,
            first_seen := ex.first_seen, last_seen := now } st i with hcase | ⟨hv, ex2, hex2, hfind2⟩
      · rw [h₁] at hcase
        rw [hcase] at h₂
        rcases Option.some.inj h₂ with rfl
        exact hc
      · rw [hv] at h₂
        rw [h₁] at hex2
        rcases Option.some.inj hex2 with rfl
        rw [hfind] at hfind2
        rcases Option.some.inj hfind2 with rfl
        rcases Option.some.inj h₂ with rfl
        show c ∈ persistedCats ex.categories a
        rw [mem_persistedCats]
        exact Or.inl hc

theorem processAll_storeMono (fails : Deal → Bool) (now : Nat) :
    ∀ (aggs : List AggDeal) (acc : List Record × List (AggDeal × DealChange)),
      StoreMono acc.1 (processAll fails now acc aggs).1 := by
  intro aggs
  induction aggs with
  | nil => intro acc; exact storeMono_refl _
  | cons a rest ih =>
      intro acc
      show StoreMono acc.1 (processAll fails now acc (a :: rest)).1
      unfold processAll
      by_cases hf : fails a.deal = true
      · rw [if_pos hf]
        exact ih acc
      · rw [if_neg hf]
        exact storeMono_trans (processDeal_storeMono now acc.1 a)
          (ih ((processDeal now acc.1 a).2.2,
            acc.2 ++ match (processDeal now acc.1 a).1 with
                     | some c => [(a, c)]
                     | none => []))

theorem runCycles_storeMono : ∀ (cycles : List (Nat × List AggDeal)) (st : List Record),
    StoreMono st (runCycles st cycles) := by
  intro cycles
  induction cycles with
  | nil => intro st; exact storeMono_refl st
  | cons c rest ih =>
      intro st
      unfold runCycles
      exact storeMono_trans (processAll_storeMono _ c.1 c.2 (st, [])) (ih _)

/-! ## Injectivity of the concatenated dictionary key -/

theorem append_sep_inj {x : Char} : ∀ {l₁ l₂ r₁ r₂ : List Char},
    x ∉ l₁ → x ∉ l₂ → l₁ ++ x :: r₁ = l₂ ++ x :: r₂ → l₁ = l₂ ∧ r₁ = r₂ := by
  intro l₁
  induction l₁ with
  | nil =>
      intro l₂ r₁ r₂ _ h₂ h
      cases l₂ with
      | nil =>
          simp only [List.nil_append, List.cons.injEq] at h
          exact ⟨rfl, h.2⟩
      | cons y ys =>
          simp only [List.nil_append, List.cons_append, List.cons.injEq] at h
          rcases h with ⟨rfl, -⟩
          exact absurd (List.mem_cons.mpr (Or.inl rfl)) h₂
  | cons y ys ih =>
      intro l₂ r₁ r₂ h₁ h₂ h
      cases l₂ with
      | nil =>
          simp only [List.cons_append, List.nil_append, List.cons.injEq] at h
          rcases h with ⟨rfl, -⟩
          exact absurd (List.mem_cons.mpr (Or.inl rfl)) h₁
      | cons z zs =>
          simp only [List.cons_append, List.cons.injEq] at h
          rcases h with ⟨rfl, h⟩
          have h₁2 : x ∉ ys := fun hx => h₁ (List.mem_cons.mpr (Or.inr hx))
          have h₂2 : x ∉ zs := fun hx => h₂ (List.mem_cons.mpr (Or.inr hx))
          rcases ih h₁2 h₂2 h with ⟨rfl, rfl⟩
          exact ⟨rfl, rfl⟩

theorem aggKey_data (m s a : String) :
    (aggKey m s a).data = m.data ++ ':' :: (s.data ++ ':' :: a.data) := by
  show (m ++ ":" ++ s ++ ":" ++ a).data = _
  simp [String.data_append]

theorem aggKey_inj {m₁ s₁ a₁ m₂ s₂ a₂ : String}
    (hm₁ : ':' ∉ m₁.data) (hm₂ : ':' ∉ m₂.data)
    (hs₁ : ':' ∉ s₁.data) (hs₂ : ':' ∉ s₂.data) :
    aggKey m₁ s₁ a₁ = aggKey m₂ s₂ a₂ ↔ (m₁ = m₂ ∧ s₁ = s₂ ∧ a₁ = a₂) := by
  constructor
  · intro h
    have hd : (aggKey m₁ s₁ a₁).data = (aggKey m₂ s₂ a₂).data := by rw [h]
    rw [aggKey_data, aggKey_data] at hd
    rcases append_sep_inj hm₁ hm₂ hd with ⟨he₁, hd2⟩
    rcases append_sep_inj hs₁ hs₂ hd2 with ⟨he₂, he₃⟩
    exact ⟨String.ext he₁, String.ext he₂, String.ext he₃⟩
  · rintro ⟨rfl, rfl, rfl⟩
    rfl

/-! ## Failure isolation of the orchestrator loops -/

theorem collectCycle_error_skip (pre post : List (SiteCtx × List (Except Unit (List Deal))))
    (ctx : SiteCtx) (rs₁ rs₂ : List (Except Unit (List Deal))) (e : Unit) :
    collectCycle (pre ++ (ctx, rs₁ ++ .error e :: rs₂) :: post) =
    collectCycle (pre ++ (ctx, rs₁ ++ rs₂) :: post) := by
  unfold collectCycle
  rw [List.foldl_append, List.foldl_append, List.foldl_cons, List.foldl_cons]
  congr 1
  show (rs₁ ++ Except.error e :: rs₂).foldl _ _ = (rs₁ ++ rs₂).foldl _ _
  rw [List.foldl_append, List.foldl_append, List.foldl_cons]

theorem processAll_cons (fails : Deal → Bool) (now : Nat)
    (acc : List Record × List (AggDeal × DealChange)) (a : AggDeal) (rest : List AggDeal) :
    processAll fails now acc (a :: rest) =
      if fails a.deal then processAll fails now acc rest
      else processAll fails now
        ((processDeal now acc.1 a).2.2,
          acc.2 ++ match (processDeal now acc.1 a).1 with
                   | some c => [(a, c)]
                   | none => []) rest := rfl

theorem processAll_fails_skip (fails : Deal → Bool) (now : Nat) :
    ∀ (l₁ : List AggDeal) (x : AggDeal) (l₂ : List AggDeal)
      (acc : List Record × List (AggDeal × DealChange)),
      fails x.deal = true →
      processAll fails now acc (l₁ ++ x :: l₂) = processAll fails now acc (l₁ ++ l₂) := by
  intro l₁
  induction l₁ with
  | nil =>
      intro x l₂ acc hx
      simp only [List.nil_append]
      rw [processAll_cons, if_pos hx]
  | cons a l₁ ih =>
      intro x l₂ acc hx
      simp only [List.cons_append]
      rw [processAll_cons, processAll_cons]
      by_cases hf : fails a.deal = true
      · rw [if_pos hf, if_pos hf]
        exact ih x l₂ acc hx
      · rw [if_neg hf, if_neg hf]
        exact ih x l₂ _ hx

theorem persistedCats_nil_eq {a : AggDeal} (hs : SSorted a.categories)
    (hc : a.deal.category ∈ a.categories) : persistedCats [] a = a.categories := by
  apply SSorted_eq_of_mem_iff (SSorted_sortCats _) hs
  intro c
  rw [mem_sortCats]
  simp only [List.nil_append, List.mem_append]
  by_cases h : a.deal.category = ""
  · simp [h]
  · simp only [if_neg h, List.mem_singleton]
    constructor
    · rintro (rfl | h2)
      · exact hc
      · exact h2
    · intro h2
      exact Or.inr h2

/-! ## Claims -/

/-- C1 counterexample: the claim fails during store reconciliation.  The
store holds a record whose current price is the known value 10.00; the
fresh aggregated observation carries the absent sentinel for the price;
process_deal matches the record and nevertheless persists the sentinel,
overwriting the known value. -/
theorem C1_counterexample :
    sampleRecord.deal.current_price = "10.00" ∧
    isPresent sampleAggNA.deal.current_price = false ∧
    List.find? (matchesQuery sampleAggNA.deal) [sampleRecord] = some sampleRecord ∧
    ((processDeal 5 [sampleRecord] sampleAggNA).2.2.head?).map (fun r => r.deal.current_price) =
      some "N/A" := by
  decide

/-- C1 amended: during the in-cycle merge an absent value never overwrites
a stored value for any field; during store reconciliation, however, every
deal field of the matched record is overwritten with the aggregated value
regardless of presence, while categories only grow and first seen is
preserved. -/
theorem C1_amended :
    (∀ (old new : Deal) (f : FieldName), isPresent (new.get f) = false →
      (overwrite old new).get f = old.get f) ∧
    (∀ (now : Nat) (st : List Record) (a : AggDeal) (ex : Record),
      st.find? (matchesQuery a.deal) = some ex →
      ∃ r, (processDeal now st a).2.2 = applyUpdate a.deal r st ∧
        (∀ f, r.deal.get f = a.deal.get f) ∧
        (∀ c, c ∈ ex.categories → c ∈ r.categories) ∧
        r.first_seen = ex.first_seen) := by
  constructor
  · intro old new f hf
    rw [overwrite_get]
    unfold keepPresent
    rw [hf]
    simp
  · intro now st a ex hfind
    refine ⟨{ deal := a.deal, categories := persistedCats ex.categories a,
              first_seen := ex.first_seen, last_seen := now }, ?_, fun f => rfl, ?_, rfl⟩
    · rw [processDeal_eq_update now st a ex hfind]
    · intro c hc
      show c ∈ persistedCats ex.categories a
      rw [mem_persistedCats]
      exact Or.inl hc

/-- C1 amended witness at the sample inputs. -/
theorem C1_amended_witness :
    ((overwrite (sampleDeal "Beauty" "10.00") (sampleDeal "Beauty" "N/A")).get .current_price =
      (sampleDeal "Beauty" "10.00").get .current_price) ∧
    (∃ r, (processDeal 5 [sampleRecord] sampleAggNA).2.2 =
        applyUpdate sampleAggNA.deal r [sampleRecord] ∧
      (∀ f, r.deal.get f = sampleAggNA.deal.get f) ∧
      (∀ c, c ∈ sampleRecord.categories → c ∈ r.categories) ∧
      r.first_seen = sampleRecord.first_seen) :=
  ⟨C1_amended.1 (sampleDeal "Beauty" "10.00") (sampleDeal "Beauty" "N/A") .current_price
      (by decide),
   C1_amended.2 5 [sampleRecord] sampleAggNA sampleRecord (by decide)⟩

/-- C2: on a repeated observation of an identity within the cycle the
aggregator replaces the stored categories with the sorted union of the old
category set and the newly observed category, and overwrites every other
field only when the incoming value is present; in the concrete scenario,
Beauty at 10.00 followed by Gaming with absent price aggregates to
categories Beauty and Gaming with price 10.00. -/
theorem C2_aggregator_merge :
    (∀ (ctx : SiteCtx) (st : List (String × AggDeal)) (d : Deal) (stored : AggDeal),
      validAsin d.asin = true →
      assocFind (aggKey ctx.marketplace_id ctx.site_name d.asin) st = some stored →
      assocFind (aggKey ctx.marketplace_id ctx.site_name d.asin) (step ctx st d) =
        some (mergeObs stored d) ∧
      (mergeObs stored d).categories = sortCats (d.category :: stored.categories) ∧
      (∀ c, c ∈ (mergeObs stored d).categories ↔ (c = d.category ∨ c ∈ stored.categories)) ∧
      (∀ f, (mergeObs stored d).deal.get f =
        if isPresent (d.get f) then d.get f else stored.deal.get f)) ∧
    (assocFind sampleKey (aggregate [obsBeauty, obsGaming])).map
        (fun e => (e.categories, e.deal.current_price)) =
      some (["Beauty", "Gaming"], "10.00") := by
  constructor
  · intro ctx st d stored hv hfind
    refine ⟨?_, rfl, ?_, ?_⟩
    · have hrel : (validAsin (Obs.mk ctx d).deal.asin &&
          (obsKey ⟨ctx, d⟩ == aggKey ctx.marketplace_id ctx.site_name d.asin)) = true := by
        show (validAsin d.asin && _) = true
        rw [hv]
        simp [obsKey]
      have hstep := assocFind_stepObs st ⟨ctx, d⟩ (aggKey ctx.marketplace_id ctx.site_name d.asin)
      rw [if_pos hrel, hfind] at hstep
      exact hstep
    · intro c
      show c ∈ sortCats (d.category :: stored.categories) ↔ _
      rw [mem_sortCats, List.mem_cons]
    · intro f
      show (overwrite stored.deal d).get f = _
      rw [overwrite_get]
      rfl
  · decide

/-- C2 witness at the sample inputs. -/
theorem C2_aggregator_merge_witness :
    validAsin (sampleDeal "Gaming" "N/A").asin = true ∧
    assocFind (aggKey sampleCtx.marketplace_id sampleCtx.site_name (sampleDeal "Gaming" "N/A").asin)
        (step sampleCtx [(sampleKey, firstObs sampleCtx (sampleDeal "Beauty" "10.00"))]
          (sampleDeal "Gaming" "N/A")) =
      some (mergeObs (firstObs sampleCtx (sampleDeal "Beauty" "10.00")) (sampleDeal "Gaming" "N/A")) :=
  ⟨by decide,
   (C2_aggregator_merge.1 sampleCtx [(sampleKey, firstObs sampleCtx (sampleDeal "Beauty" "10.00"))]
      (sampleDeal "Gaming" "N/A") (firstObs sampleCtx (sampleDeal "Beauty" "10.00"))
      (by decide) (by decide)).1⟩

/-- C3: for an identity present in the store the change detector returns an
Updated event exactly when the watched field, the current price, differs
between the stored and the aggregated value, with the event carrying the
old and new values; the merged document is persisted; concretely, stored
price 10.00 against aggregated price 8.00 yields the event mapping
current price to the pair of 10.00 and 8.00 and persists 8.00. -/
theorem C3_change_detector_diff :
    (∀ (now : Nat) (st : List Record) (a : AggDeal) (ex : Record),
      st.find? (matchesQuery a.deal) = some ex →
      (((processDeal now st a).1 =
          some ⟨"Updated deal", [("current_price", ex.deal.current_price, a.deal.current_price)]⟩) ↔
        ex.deal.current_price ≠ a.deal.current_price) ∧
      ((processDeal now st a).1 = none ↔ ex.deal.current_price = a.deal.current_price) ∧
      (processDeal now st a).2.2 =
        applyUpdate a.deal
          { deal := a.deal, categories := persistedCats ex.categories a,
            first_seen := ex.first_seen, last_seen := now } st) ∧
    ((processDeal 7 [sampleRecord] sampleAgg8).1 =
        some ⟨"Updated deal", [("current_price", "10.00", "8.00")]⟩ ∧
      ((processDeal 7 [sampleRecord] sampleAgg8).2.2.head?).map (fun r => r.deal.current_price) =
        some "8.00") := by
  constructor
  · intro now st a ex hfind
    rw [processDeal_eq_update now st a ex hfind]
    by_cases hp : ex.deal.current_price = a.deal.current_price <;>
      exact ⟨by simp [hp], by simp [hp], by simp [hp]⟩
  · decide

/-- C3 witness at the sample inputs. -/
theorem C3_change_detector_diff_witness :
    List.find? (matchesQuery sampleAgg8.deal) [sampleRecord] = some sampleRecord ∧
    (processDeal 7 [sampleRecord] sampleAgg8).1 =
      some ⟨"Updated deal",
        [("current_price", sampleRecord.deal.current_price, sampleAgg8.deal.current_price)]⟩ :=
  ⟨by decide,
   (C3_change_detector_diff.1 7 [sampleRecord] sampleAgg8 sampleRecord (by decide)).1.mpr
     (by decide)⟩

/-- C4: for an identity absent from the store, process_deal creates and
persists a record whose deal fields come from the aggregated listing, whose
first seen and last seen both equal the current time, and whose categories
are the aggregated categories, and it returns the New change event with an
empty diff together with the newly discovered flag. -/
theorem C4_new_identity :
    ∀ (now : Nat) (st : List Record) (a : AggDeal),
      st.find? (matchesQuery a.deal) = none →
      processDeal now st a =
        (some ⟨"New deal", []⟩, true,
          st ++ [{ deal := a.deal, categories := persistedCats [] a,
                   first_seen := now, last_seen := now }]) ∧
      (SSorted a.categories → a.deal.category ∈ a.categories →
        persistedCats [] a = a.categories) := by
  intro now st a hfind
  exact ⟨processDeal_eq_insert now st a hfind, fun hs hc => persistedCats_nil_eq hs hc⟩

/-- C4 witness at the sample inputs. -/
theorem C4_new_identity_witness :
    (processDeal 3 [] sampleAgg8 =
      (some ⟨"New deal", []⟩, true,
        [{ deal := sampleAgg8.deal, categories := persistedCats [] sampleAgg8,
           first_seen := 3, last_seen := 3 }])) ∧
    persistedCats [] sampleAgg8 = sampleAgg8.categories :=
  ⟨(C4_new_identity 3 [] sampleAgg8 rfl).1,
   (C4_new_identity 3 [] sampleAgg8 rfl).2 (by simp [SSorted, sampleAgg8, sampleDeal])
     (by decide)⟩

/-- C5: on every reconciliation of an existing record the persisted
categories contain every previously stored category and are exactly the
union of the stored set with the categories carried by the aggregated
listing; consequently the categories at every store position never shrink
across any number of cycles. -/
theorem C5_categories_never_shrink :
    (∀ (now : Nat) (st : List Record) (a : AggDeal) (ex : Record),
      st.find? (matchesQuery a.deal) = some ex →
      ∃ r, (processDeal now st a).2.2 = applyUpdate a.deal r st ∧
        (∀ c, c ∈ ex.categories → c ∈ r.categories) ∧
        (∀ c, c ∈ r.categories ↔
          (c ∈ ex.categories ∨ (a.deal.category ≠ "" ∧ c = a.deal.category) ∨
            c ∈ a.categories))) ∧
    (∀ (st : List Record) (cycles : List (Nat × List AggDeal)),
      StoreMono st (runCycles st cycles)) := by
  constructor
  · intro now st a ex hfind
    refine ⟨{ deal := a.deal, categories := persistedCats ex.categories a,
              first_seen := ex.first_seen, last_seen := now }, ?_, ?_, ?_⟩
    · rw [processDeal_eq_update now st a ex hfind]
    · intro c hc
      show c ∈ persistedCats ex.categories a
      rw [mem_persistedCats]
      exact Or.inl hc
    · intro c
      show c ∈ persistedCats ex.categories a ↔ _
      exact mem_persistedCats
  · intro st cycles
    exact runCycles_storeMono cycles st

/-- C5 witness at the sample inputs. -/
theorem C5_categories_never_shrink_witness :
    ∃ r, (processDeal 5 [sampleRecord] sampleAgg8).2.2 =
        applyUpdate sampleAgg8.deal r [sampleRecord] ∧
      (∀ c, c ∈ sampleRecord.categories → c ∈ r.categories) ∧
      (∀ c, c ∈ r.categories ↔
        (c ∈ sampleRecord.categories ∨
          (sampleAgg8.deal.category ≠ "" ∧ c = sampleAgg8.deal.category) ∨
          c ∈ sampleAgg8.categories)) :=
  C5_categories_never_shrink.1 5 [sampleRecord] sampleAgg8 sampleRecord (by decide)

/-- C6: every reconciliation of an identity already in the store persists
the merged record whether or not an event is emitted, setting last seen to
the current time, keeping first seen unchanged, and returning no event when
the watched price did not change. -/
theorem C6_persist_and_timestamps :
    ∀ (now : Nat) (st : List Record) (a : AggDeal) (ex : Record),
      st.find? (matchesQuery a.deal) = some ex →
      ∃ r, (processDeal now st a).2.2 = applyUpdate a.deal r st ∧
        r.last_seen = now ∧
        r.first_seen = ex.first_seen ∧
        (ex.deal.current_price = a.deal.current_price → (processDeal now st a).1 = none) := by
  intro now st a ex hfind
  refine ⟨{ deal := a.deal, categories := persistedCats ex.categories a,
            first_seen := ex.first_seen, last_seen := now }, ?_, rfl, rfl, ?_⟩
  · rw [processDeal_eq_update now st a ex hfind]
  · intro hp
    rw [processDeal_eq_update now st a ex hfind]
    simp [hp]

/-- C6 witness at the sample inputs. -/
theorem C6_persist_and_timestamps_witness :
    ∃ r, (processDeal 9 [sampleRecord] sampleAgg10).2.2 =
        applyUpdate sampleAgg10.deal r [sampleRecord] ∧
      r.last_seen = 9 ∧
      r.first_seen = sampleRecord.first_seen ∧
      (sampleRecord.deal.current_price = sampleAgg10.deal.current_price →
        (processDeal 9 [sampleRecord] sampleAgg10).1 = none) :=
  C6_persist_and_timestamps 9 [sampleRecord] sampleAgg10 sampleRecord (by decide)

theorem keepPresent_self (v : String) : keepPresent v v = v := by
  unfold keepPresent
  split <;> rfl

/-- C7: permuting the observations of a cycle never changes the final
aggregated category list of any identity, which always equals the sorted
deduplicated list of every category label observed for that identity, while
the other fields are order sensitive with the last present value in
observation order winning. -/
theorem C7_order_invariance :
    (∀ (l₁ l₂ : List Obs), l₁.Perm l₂ →
      ∀ k, (assocFind k (aggregate l₁)).map (fun e => e.categories) =
           (assocFind k (aggregate l₂)).map (fun e => e.categories)) ∧
    (∀ (l : List Obs) (k : String) (e : AggDeal),
      assocFind k (aggregate l) = some e → e.categories = sortCats (obsCats k l)) ∧
    (∀ (l : List Obs) (k : String) (e : AggDeal) (f : FieldName),
      (∀ o ∈ l, coherent o) → assocFind k (aggregate l) = some e →
      ∀ (ws : List String) (w : String),
        (obsVals k f l).filter (fun v => isPresent v) = ws ++ [w] →
        e.deal.get f = w) := by
  have hchar : ∀ (l : List Obs) (k : String) (e : AggDeal),
      assocFind k (aggregate l) = some e → e.categories = sortCats (obsCats k l) := by
    intro l k e hf
    have hss : SSorted e.categories :=
      aggregate_cats_SSorted l [] (fun k2 e2 h => Option.noConfusion h) k e hf
    have hmem := (aggregate_cats_mem l [] k).1
    apply SSorted_eq_of_mem_iff hss (SSorted_sortCats _)
    intro a
    rw [mem_sortCats]
    constructor
    · intro ha
      rcases (hmem a).mp ⟨e, hf, ha⟩ with (⟨e2, h2, -⟩ | h)
      · exact Option.noConfusion h2
      · exact h
    · intro ha
      rcases (hmem a).mpr (Or.inr ha) with ⟨e2, h2, ha2⟩
      have hf2 : assocFind k (List.foldl stepObs [] l) = some e := hf
      rw [hf2] at h2
      rcases Option.some.inj h2 with rfl
      exact ha2
  refine ⟨?_, hchar, ?_⟩
  · intro l₁ l₂ hperm k
    have hp : (obsCats k l₁).Perm (obsCats k l₂) := (hperm.filter _).map _
    cases h₁ : assocFind k (aggregate l₁) with
    | none =>
        have hnone := (aggregate_cats_mem l₁ [] k).2.mp h₁
        have h2nil : obsCats k l₂ = [] := List.Perm.eq_nil (hnone.2 ▸ hp.symm)
        have h₂ : assocFind k (aggregate l₂) = none :=
          (aggregate_cats_mem l₂ [] k).2.mpr ⟨rfl, h2nil⟩
        rw [h₂]
    | some e₁ =>
        cases h₂ : assocFind k (aggregate l₂) with
        | none =>
            have hnone := (aggregate_cats_mem l₂ [] k).2.mp h₂
            have h1nil : obsCats k l₁ = [] := List.Perm.eq_nil (hnone.2 ▸ hp)
            have hcontr := (aggregate_cats_mem l₁ [] k).2.mpr ⟨rfl, h1nil⟩
            have h₁2 : assocFind k (List.foldl stepObs [] l₁) = some e₁ := h₁
            rw [h₁2] at hcontr
            exact Option.noConfusion hcontr
        | some e₂ =>
            have : e₁.categories = e₂.categories := by
              rw [hchar l₁ k e₁ h₁, hchar l₂ k e₂ h₂]
              exact sortCats_eq_of_mem_iff (fun a => hp.mem_iff)
            simp [this]
  · intro l k e f hcoh hf ws w hfil
    have hfield := aggregate_field_none l [] k f hcoh rfl
    have hf2 : assocFind k (List.foldl stepObs [] l) = some e := hf
    have hfield2 : some (e.deal.get f) = mergeVals (obsVals k f l) := by
      rw [← hfield, hf2]
      rfl
    cases hv : obsVals k f l with
    | nil =>
        rw [hv] at hfield2
        exact Option.noConfusion hfield2
    | cons v vr =>
        rw [hv] at hfield2 hfil
        rw [show mergeVals (v :: vr) = some (vr.foldl keepPresent v) from rfl] at hfield2
        have he : e.deal.get f = vr.foldl keepPresent v := Option.some.inj hfield2
        have hlast : (v :: vr).foldl keepPresent v = w :=
          foldl_keepPresent_last_present (v :: vr) v ws w hfil
        rw [List.foldl_cons, keepPresent_self] at hlast
        rw [he]
        exact hlast

/-- C7 witness at the sample inputs. -/
theorem C7_order_invariance_witness :
    ((assocFind sampleKey (aggregate [obsBeauty, obsGaming])).map (fun e => e.categories) =
      (assocFind sampleKey (aggregate [obsGaming, obsBeauty])).map (fun e => e.categories)) ∧
    sampleEntry.categories = sortCats (obsCats sampleKey [obsBeauty, obsGaming]) ∧
    sampleEntry.deal.get .current_price = "10.00" :=
  ⟨C7_order_invariance.1 [obsBeauty, obsGaming] [obsGaming, obsBeauty]
      (List.Perm.swap obsGaming obsBeauty []) sampleKey,
   C7_order_invariance.2.1 [obsBeauty, obsGaming] sampleKey sampleEntry (by decide),
   C7_order_invariance.2.2 [obsBeauty, obsGaming] sampleKey sampleEntry .current_price
     (by
       intro o ho
       rcases List.mem_cons.mp ho with rfl | ho
       · exact ⟨rfl, rfl, rfl⟩
       rcases List.mem_cons.mp ho with rfl | ho
       · exact ⟨rfl, rfl, rfl⟩
       cases ho)
     (by decide) [] "10.00" (by decide)⟩

/-- C8: a failed scrape of one category is skipped by the collection loop
without affecting any other category, and a failed store operation for one
identity is skipped by the processing loop without affecting any other
identity: in both cases the cycle outcome equals the outcome of the same
cycle with the failing unit removed, so every other category and identity
is still aggregated, persisted and queued for notification. -/
theorem C8_failure_isolation :
    (∀ (pre post : List (SiteCtx × List (Except Unit (List Deal)))) (ctx : SiteCtx)
      (rs₁ rs₂ : List (Except Unit (List Deal))) (e : Unit),
      collectCycle (pre ++ (ctx, rs₁ ++ .error e :: rs₂) :: post) =
      collectCycle (pre ++ (ctx, rs₁ ++ rs₂) :: post)) ∧
    (∀ (fails : Deal → Bool) (now : Nat) (l₁ : List AggDeal) (x : AggDeal)
      (l₂ : List AggDeal) (acc : List Record × List (AggDeal × DealChange)),
      fails x.deal = true →
      processAll fails now acc (l₁ ++ x :: l₂) = processAll fails now acc (l₁ ++ l₂)) := by
  exact ⟨collectCycle_error_skip, processAll_fails_skip⟩

/-- C8 witness: a failing scrape of one category and a failing store
operation for one identity at concrete inputs. -/
theorem C8_failure_isolation_witness :
    (collectCycle [(sampleCtx, [.ok [sampleDeal "Beauty" "10.00"], .error (),
        .ok [sampleDeal "Gaming" "N/A"]])] =
      collectCycle [(sampleCtx, [.ok [sampleDeal "Beauty" "10.00"],
        .ok [sampleDeal "Gaming" "N/A"]])]) ∧
    (processAll (fun d => d.category == "Gaming") 4 ([], [])
        [sampleAgg8, ⟨sampleDeal "Gaming" "9.00", ["Gaming"]⟩, sampleAgg10] =
      processAll (fun d => d.category == "Gaming") 4 ([], []) [sampleAgg8, sampleAgg10]) :=
  ⟨C8_failure_isolation.1 [] [] sampleCtx [.ok [sampleDeal "Beauty" "10.00"]]
      [.ok [sampleDeal "Gaming" "N/A"]] (),
   C8_failure_isolation.2 (fun d => d.category == "Gaming") 4 [sampleAgg8]
      ⟨sampleDeal "Gaming" "9.00", ["Gaming"]⟩ [sampleAgg10] ([], []) (by decide)⟩

/-- C9 counterexample: the first notification is rate limited on both the
initial send and the retry; the failure of the retry propagates out of the
delivery call and aborts the loop, so the second notification, which would
have been delivered on its first attempt, is never sent, and nothing is
delivered at all. -/
theorem C9_counterexample :
    notifyChange (fun _ => SendOutcome.ok) = .ok 1 ∧
    runNotifs [fun _ => SendOutcome.rateLimited, fun _ => SendOutcome.ok] =
      ([], some SendOutcome.rateLimited) :=
  ⟨rfl, rfl⟩

theorem runNotifs_cons (f : Nat → SendOutcome) (fs : List (Nat → SendOutcome)) :
    runNotifs (f :: fs) =
      match notifyChange f with
      | .ok n => (n :: (runNotifs fs).1, (runNotifs fs).2)
      | .error e => ([], some e) := rfl

/-- C9 amended: a rate-limited send is retried exactly once after the fixed
delay and a successful retry delivers the notification; but a failure of
the retry, or any non rate-limit failure, propagates out of the delivery
call and aborts all remaining notifications of the cycle instead of
dropping only the failed one. -/
theorem C9_amended :
    (∀ f : Nat → SendOutcome, f 0 = .rateLimited → f 1 = .ok → notifyChange f = .ok 2) ∧
    (∀ f : Nat → SendOutcome, f 0 = .otherError → notifyChange f = .error .otherError) ∧
    (∀ (f : Nat → SendOutcome) (fs : List (Nat → SendOutcome)) (e : SendOutcome),
      notifyChange f = .error e → runNotifs (f :: fs) = ([], some e)) ∧
    (∀ (f : Nat → SendOutcome) (fs : List (Nat → SendOutcome)) (n : Nat),
      notifyChange f = .ok n →
      runNotifs (f :: fs) = (n :: (runNotifs fs).1, (runNotifs fs).2)) := by
  refine ⟨?_, ?_, ?_, ?_⟩
  · intro f h0 h1
    unfold notifyChange
    rw [h0, h1]
  · intro f h0
    unfold notifyChange
    rw [h0]
  · intro f fs e h
    rw [runNotifs_cons, h]
  · intro f fs n h
    rw [runNotifs_cons, h]

/-- C9 amended witness at concrete senders. -/
theorem C9_amended_witness :
    notifyChange (fun i => if i = 0 then SendOutcome.rateLimited else SendOutcome.ok) = .ok 2 ∧
    runNotifs [fun _ => SendOutcome.rateLimited, fun _ => SendOutcome.ok] =
      ([], some SendOutcome.rateLimited) ∧
    runNotifs [fun _ => SendOutcome.ok, fun _ => SendOutcome.ok] = ([1, 1], none) :=
  ⟨C9_amended.1 (fun i => if i = 0 then SendOutcome.rateLimited else SendOutcome.ok) rfl rfl,
   C9_amended.2.2.1 (fun _ => SendOutcome.rateLimited) [fun _ => SendOutcome.ok]
     SendOutcome.rateLimited rfl,
   by
     rw [C9_amended.2.2.2 (fun _ => SendOutcome.ok) [fun _ => SendOutcome.ok] 1 rfl]
     rfl⟩

/-- C10 counterexample: two listings whose identity triples are distinct
collide on the concatenated string key because the marketplace and site
components contain the separator, so the aggregator merges them into a
single entry instead of keeping distinct entries. -/
theorem C10_counterexample :
    (("a:b", "c", "B000X") ≠ (("a" : String), ("b:c" : String), ("B000X" : String))) ∧
    aggKey "a:b" "c" "B000X" = aggKey "a" "b:c" "B000X" ∧
    (aggregate [⟨⟨"a:b", "c", "B"⟩, sampleDeal "Beauty" "10.00"⟩,
                ⟨⟨"a", "b:c", "B"⟩, sampleDeal "Gaming" "9.00"⟩]).length = 1 := by
  decide

/-- C10 amended: the aggregator keys on the concatenated string of the
identity triple, which coincides with keying on the triple itself exactly
when the marketplace and site components are free of the separator; the
store lookup matches on the triple whenever the marketplace and site of the
incoming listing are nonempty. -/
theorem C10_amended :
    (∀ m₁ s₁ a₁ m₂ s₂ a₂ : String,
      ':' ∉ m₁.data → ':' ∉ m₂.data → ':' ∉ s₁.data → ':' ∉ s₂.data →
      (aggKey m₁ s₁ a₁ = aggKey m₂ s₂ a₂ ↔ (m₁ = m₂ ∧ s₁ = s₂ ∧ a₁ = a₂))) ∧
    (∀ (d : Deal) (r : Record), d.marketplace_id ≠ "" → d.site ≠ "" →
      (matchesQuery d r = true ↔
        (r.deal.asin = d.asin ∧ r.deal.marketplace_id = d.marketplace_id ∧
          r.deal.site = d.site))) := by
  constructor
  · intro m₁ s₁ a₁ m₂ s₂ a₂ hm₁ hm₂ hs₁ hs₂
    exact aggKey_inj hm₁ hm₂ hs₁ hs₂
  · intro d r hm hs
    unfold matchesQuery
    rw [Bool.and_eq_true, Bool.and_eq_true, Bool.or_eq_true, Bool.or_eq_true]
    simp only [beq_iff_eq, beq_eq_false_iff_ne]
    constructor
    · rintro ⟨⟨ha, hmq⟩, hsq⟩
      refine ⟨ha, ?_, ?_⟩
      · rcases hmq with h | h
        · exact absurd h hm
        · exact h
      · rcases hsq with h | h
        · exact absurd h hs
        · exact h
    · rintro ⟨ha, hmq, hsq⟩
      exact ⟨⟨ha, Or.inr hmq⟩, Or.inr hsq⟩

/-- C10 amended witness at concrete separator-free and nonempty inputs. -/
theorem C10_amended_witness :
    (aggKey "M1" "SiteA" "B000X" = aggKey "M1" "SiteA" "B000X" ↔
      (("M1" : String) = "M1" ∧ ("SiteA" : String) = "SiteA" ∧
        ("B000X" : String) = "B000X")) ∧
    (matchesQuery (sampleDeal "Beauty" "10.00") sampleRecord = true ↔
      (sampleRecord.deal.asin = (sampleDeal "Beauty" "10.00").asin ∧
        sampleRecord.deal.marketplace_id = (sampleDeal "Beauty" "10.00").marketplace_id ∧
        sampleRecord.deal.site = (sampleDeal "Beauty" "10.00").site)) :=
  ⟨C10_amended.1 "M1" "SiteA" "B000X" "M1" "SiteA" "B000X"
      (by decide) (by decide) (by decide) (by decide),
   C10_amended.2 (sampleDeal "Beauty" "10.00") sampleRecord (by decide) (by decide)⟩
